/-
Verification of the particle-in-a-box eigenvalue and degeneracy engine
(`basics_quantum_chemistry/basic_models.py` and `basic_models_v2.py`).

The Python code is shallowly embedded over exact rationals:
* a Python `float` expression becomes the corresponding `ℚ` expression
  (the claims under study concern the algebraic formulas and the exact
  grouping performed by `==`, both of which the rational model reflects);
* a Python `dict` built in insertion order becomes an association list
  `List (key × ℚ)` in the same order (Python dicts preserve insertion
  order, and the code iterates over `.items()` in that order);
* `scipy.constants.h` is the exact decimal 6.62607015e-34.
-/
import Mathlib

namespace QuantumBox

/-- `scipy.constants.h`, Planck's constant, as the exact decimal. -/
def hPlanck : ℚ := 662607015 / 10 ^ 42

/-- Python `range(lo, hi + 1)` over integers, as a list. -/
def rangeList (lo hi : ℤ) : List ℤ :=
  (List.range (hi + 1 - lo).toNat).map (fun k : ℕ => lo + (k : ℤ))

/-! ### `basic_models.py`: class `ParticleBox` -/

/-- Fields assigned by `ParticleBox.__init__` (`basic_models.py`, lines 30–38):
the constructor stores the four arguments and performs no other action. -/
structure ParticleBox where
  mass : ℚ
  length_x : ℚ
  length_y : ℚ
  length_z : ℚ

/-- `ParticleBox.__init__` (`basic_models.py`, lines 30–38): plain storage of
`mass`, `length_x`, `length_y`, `length_z`, with no validation. -/
def ParticleBox.init (mass length_x length_y length_z : ℚ) : ParticleBox :=
  { mass := mass, length_x := length_x, length_y := length_y, length_z := length_z }

/-- `ParticleBox._calc_eigenvalue` (`basic_models.py`, lines 74–77):
`(h**2 / (8*mass)) * ((n_x/length_x)**2 + (n_y/length_y)**2 + (n_z/length_z)**2)`. -/
def ParticleBox._calc_eigenvalue (b : ParticleBox) (n_x n_y n_z : ℤ) : ℚ :=
  (hPlanck ^ 2 / (8 * b.mass))
    * (((n_x : ℚ) / b.length_x) ^ 2
       + ((n_y : ℚ) / b.length_y) ^ 2
       + ((n_z : ℚ) / b.length_z) ^ 2)

/-- `ParticleBox.calc_eigenvalues` (`basic_models.py`, lines 118–129): three
nested loops `for i in range(n_x[0], n_x[1]+1): for j in ...: for k in ...`
filling the dict `eigenvalues[i, j, k] = self._calc_eigenvalue(i, j, k)`,
modelled as the association list in insertion order. -/
def ParticleBox.calc_eigenvalues (b : ParticleBox) (n_x n_y n_z : ℤ × ℤ) :
    List ((ℤ × ℤ × ℤ) × ℚ) :=
  (rangeList n_x.1 n_x.2).flatMap fun i =>
    (rangeList n_y.1 n_y.2).flatMap fun j =>
      (rangeList n_z.1 n_z.2).map fun k => ((i, j, k), b._calc_eigenvalue i j k)

/-! ### `basic_models_v2.py`: class `ParticleBox_multiD` -/

/-- Fields assigned by `ParticleBox_multiD.__init__` (`basic_models_v2.py`,
lines 37–41): the constructor stores `mass` and the length tuple,
with no validation. -/
structure ParticleBox_multiD where
  mass : ℚ
  length : List ℚ

/-- `ParticleBox_multiD.__init__` (`basic_models_v2.py`, lines 37–41):
plain storage of `mass` and `length`. -/
def ParticleBox_multiD.init (mass : ℚ) (length : List ℚ) : ParticleBox_multiD :=
  { mass := mass, length := length }

/-- `ParticleBox_multiD.calc_single_eigenvalue` (`basic_models_v2.py`, lines
43–50): starts from `eigenvalue = 0` and, for each `(spatial_n, spatial_length)`
in `zip(n, self._length)`, adds `(h**2 / (8*mass)) * (spatial_n**2 / spatial_length**2)`. -/
def ParticleBox_multiD.calc_single_eigenvalue (b : ParticleBox_multiD) (n : List ℤ) : ℚ :=
  (n.zip b.length).foldl
    (fun acc p => acc + (hPlanck ^ 2 / (8 * b.mass)) * ((p.1 : ℚ) ^ 2 / p.2 ^ 2)) 0

/-- The list of tuples produced by `itertools.product(*[range(lo, hi+1) ...])`
(`basic_models_v2.py`, lines 55–56): the Cartesian product of the per-dimension
ranges, first coordinate varying slowest. -/
def prodRanges (ns : List (ℤ × ℤ)) : List (List ℤ) :=
  ns.foldr
    (fun r acc => (rangeList r.1 r.2).flatMap fun i => acc.map fun t => i :: t)
    [[]]

/-- `ParticleBox_multiD.calc_multi_eigenvalues` (`basic_models_v2.py`, lines
52–58): for each tuple `i` in the product of the ranges, sets
`eigenvalues[i] = self.calc_single_eigenvalue(i)`. -/
def ParticleBox_multiD.calc_multi_eigenvalues (b : ParticleBox_multiD)
    (n_i : List (ℤ × ℤ)) : List (List ℤ × ℚ) :=
  (prodRanges n_i).map fun t => (t, b.calc_single_eigenvalue t)

/-! ### Degeneracy classifier

`determine_discrete_eigenvalues` and `determine_degeneracy` have the same body
in both files (`basic_models.py`, lines 132–171, over `(i, j, k)` keys, and
`basic_models_v2.py`, lines 60–73, over tuple keys); they are embedded once,
polymorphic in the key type, and instantiated per class below. -/

/-- `sorted({value for value in eigenvalues.values()})`: the distinct energy
values of the table, sorted ascending. -/
def discreteEigenvalues {α : Type} (eigenvalues : List (α × ℚ)) : List ℚ :=
  List.insertionSort (fun a b => a ≤ b) (eigenvalues.map Prod.snd).dedup

/-- The body of `determine_degeneracy`: for each discrete eigenvalue `i` in
ascending order, the list `same_quantum_states` of states whose value equals
`i` (in table order, Python `==` on values), appended as
`[i, len(same_quantum_states), same_quantum_states]`. -/
def degeneracyGroups {α : Type} [DecidableEq α] (eigenvalues : List (α × ℚ)) :
    List (ℚ × ℕ × List α) :=
  (discreteEigenvalues eigenvalues).map fun i =>
    let same_quantum_states :=
      (eigenvalues.filter fun p => decide (p.2 = i)).map Prod.fst
    (i, same_quantum_states.length, same_quantum_states)

/-- `ParticleBox.determine_discrete_eigenvalues` (`basic_models.py`, 132–145). -/
def ParticleBox.determine_discrete_eigenvalues (_b : ParticleBox)
    (eigenvalues : List ((ℤ × ℤ × ℤ) × ℚ)) : List ℚ :=
  discreteEigenvalues eigenvalues

/-- `ParticleBox.determine_degeneracy` (`basic_models.py`, lines 148–171). -/
def ParticleBox.determine_degeneracy (_b : ParticleBox)
    (eigenvalues : List ((ℤ × ℤ × ℤ) × ℚ)) : List (ℚ × ℕ × List (ℤ × ℤ × ℤ)) :=
  degeneracyGroups eigenvalues

/-- `ParticleBox_multiD._determine_discrete_eigenvalues` (`basic_models_v2.py`,
lines 60–61). -/
def ParticleBox_multiD._determine_discrete_eigenvalues (_b : ParticleBox_multiD)
    (eigenvalues : List (List ℤ × ℚ)) : List ℚ :=
  discreteEigenvalues eigenvalues

/-- `ParticleBox_multiD.determine_degeneracy` (`basic_models_v2.py`, 63–73). -/
def ParticleBox_multiD.determine_degeneracy (_b : ParticleBox_multiD)
    (eigenvalues : List (List ℤ × ℚ)) : List (ℚ × ℕ × List (List ℤ)) :=
  degeneracyGroups eigenvalues

/-- Python's lexicographic `<` on integer tuples (used to state the spec's
member-ordering claim; the source never sorts states, see C7). -/
def lexLtB : List ℤ → List ℤ → Bool
  | [], [] => false
  | [], _ :: _ => true
  | _ :: _, [] => false
  | x :: xs, y :: ys => if x < y then true else if x = y then lexLtB xs ys else false

/-! ### Basic lemmas about the embedding -/

/-- Folding the accumulation loop of `calc_single_eigenvalue` gives the closed
sum of the per-dimension contributions. -/
theorem foldl_add_eq_sum (c : ℚ) (g : ℤ × ℚ → ℚ) (l : List (ℤ × ℚ)) (a : ℚ) :
    l.foldl (fun acc p => acc + c * g p) a = a + c * (l.map g).sum := by
  induction l generalizing a with
  | nil => simp
  | cons p l ih =>
    simp only [List.foldl_cons, List.map_cons, List.sum_cons, ih]
    ring

/-- `calc_single_eigenvalue` equals the factored closed form: the coefficient
`h²/(8m)` times the sum of `n_d²/L_d²` over the zipped dimensions. -/
theorem calc_single_eigenvalue_eq (b : ParticleBox_multiD) (n : List ℤ) :
    b.calc_single_eigenvalue n =
      hPlanck ^ 2 / (8 * b.mass)
        * ((n.zip b.length).map fun p => (p.1 : ℚ) ^ 2 / p.2 ^ 2).sum := by
  unfold ParticleBox_multiD.calc_single_eigenvalue
  rw [foldl_add_eq_sum]
  ring

/-- Planck's constant is positive. -/
theorem hPlanck_pos : 0 < hPlanck := by norm_num [hPlanck]

/-! ### C1: the closed-form eigenvalue formula -/

/-- C1: for every particle of positive mass `m`, every box with positive side
lengths, and every quantum-number tuple, the single-eigenvalue computation
(`ParticleBox._calc_eigenvalue` and `ParticleBox_multiD.calc_single_eigenvalue`)
returns exactly `E = (h² / 8m) · Σ_d (n_d² / L_d²)` over the active
dimensions, with `h` Planck's constant. -/
theorem C1_eigenvalue_formula (m : ℚ) (L : List ℚ) (n : List ℤ)
    (Lx Ly Lz : ℚ) (n_x n_y n_z : ℤ)
    (hm : 0 < m) (hL : ∀ x ∈ L, 0 < x) (hlen : n.length = L.length)
    (hLx : 0 < Lx) (hLy : 0 < Ly) (hLz : 0 < Lz) :
    (ParticleBox_multiD.init m L).calc_single_eigenvalue n =
      hPlanck ^ 2 / (8 * m)
        * ((n.zip L).map fun p => (p.1 : ℚ) ^ 2 / p.2 ^ 2).sum ∧
    (ParticleBox.init m Lx Ly Lz)._calc_eigenvalue n_x n_y n_z =
      hPlanck ^ 2 / (8 * m)
        * ((n_x : ℚ) ^ 2 / Lx ^ 2 + (n_y : ℚ) ^ 2 / Ly ^ 2 + (n_z : ℚ) ^ 2 / Lz ^ 2) := by
  constructor
  · exact calc_single_eigenvalue_eq (ParticleBox_multiD.init m L) n
  · unfold ParticleBox._calc_eigenvalue ParticleBox.init
    rw [div_pow, div_pow, div_pow]

/-- C1 witness: the 1-D box of length 1 and mass 1 in state `(1)`, and the
3-D unit box in state `(1,1,1)`, instantiate the formula; the 1-D value is
exactly `h²/8` (the spec's scenario `≈ 5.488×10⁻⁶⁸`). -/
theorem C1_eigenvalue_formula_witness :
    ((ParticleBox_multiD.init 1 [1]).calc_single_eigenvalue [1] =
        hPlanck ^ 2 / (8 * 1)
          * ((([1] : List ℤ).zip [(1 : ℚ)]).map fun p => (p.1 : ℚ) ^ 2 / p.2 ^ 2).sum ∧
      (ParticleBox.init 1 1 1 1)._calc_eigenvalue 1 1 1 =
        hPlanck ^ 2 / (8 * 1)
          * (((1 : ℤ) : ℚ) ^ 2 / 1 ^ 2 + ((1 : ℤ) : ℚ) ^ 2 / 1 ^ 2
             + ((1 : ℤ) : ℚ) ^ 2 / 1 ^ 2)) ∧
    (ParticleBox_multiD.init 1 [1]).calc_single_eigenvalue [1] =
      439048056327210225 / (8 * 10 ^ 84) := by
  refine ⟨C1_eigenvalue_formula 1 [1] [1] 1 1 1 1 1 1 ?_ ?_ ?_ ?_ ?_ ?_, ?_⟩
  · decide
  · decide
  · rfl
  · decide
  · decide
  · decide
  · simp [ParticleBox_multiD.calc_single_eigenvalue, ParticleBox_multiD.init, hPlanck]
    norm_num

/-! ### C10: sign, zero set, and parity of the eigenvalue -/

/-- The eigenvalue sums are invariant under negating quantum numbers
componentwise. -/
theorem zip_sum_sq_invariant (n₁ n₂ : List ℤ)
    (hf : List.Forall₂ (fun a b => a = b ∨ a = -b) n₁ n₂) :
    ∀ L : List ℚ,
      ((n₁.zip L).map fun p => (p.1 : ℚ) ^ 2 / p.2 ^ 2).sum =
        ((n₂.zip L).map fun p => (p.1 : ℚ) ^ 2 / p.2 ^ 2).sum := by
  induction hf with
  | nil => intro L; rfl
  | cons hab ht ih =>
    intro L
    cases L with
    | nil => rfl
    | cons l0 ls =>
      simp only [List.zip_cons_cons, List.map_cons, List.sum_cons, ih ls]
      rcases hab with rfl | rfl
      · rfl
      · congr 1
        push_cast
        ring

/-- C10: for every positive mass and positive side lengths, the
single-eigenvalue computation (`ParticleBox_multiD.calc_single_eigenvalue` and
`ParticleBox._calc_eigenvalue`) is defined on all integer quantum numbers
(including negative ones), is always non-negative, vanishes exactly when all
quantum numbers are 0, and is invariant under negating any quantum number. -/
theorem C10_eigenvalue_algebra :
    (∀ (m : ℚ) (L : List ℚ), 0 < m → (∀ x ∈ L, 0 < x) →
      (∀ n : List ℤ, 0 ≤ (ParticleBox_multiD.init m L).calc_single_eigenvalue n) ∧
      (∀ n : List ℤ, n.length = L.length →
        ((ParticleBox_multiD.init m L).calc_single_eigenvalue n = 0 ↔
          ∀ x ∈ n, x = 0)) ∧
      (∀ n₁ n₂ : List ℤ, List.Forall₂ (fun a b => a = b ∨ a = -b) n₁ n₂ →
        (ParticleBox_multiD.init m L).calc_single_eigenvalue n₁ =
          (ParticleBox_multiD.init m L).calc_single_eigenvalue n₂)) ∧
    (∀ (m Lx Ly Lz : ℚ), 0 < m → 0 < Lx → 0 < Ly → 0 < Lz →
      (∀ n_x n_y n_z : ℤ,
        0 ≤ (ParticleBox.init m Lx Ly Lz)._calc_eigenvalue n_x n_y n_z) ∧
      (∀ n_x n_y n_z : ℤ,
        ((ParticleBox.init m Lx Ly Lz)._calc_eigenvalue n_x n_y n_z = 0 ↔
          n_x = 0 ∧ n_y = 0 ∧ n_z = 0)) ∧
      (∀ n_x n_y n_z : ℤ,
        (ParticleBox.init m Lx Ly Lz)._calc_eigenvalue (-n_x) n_y n_z =
          (ParticleBox.init m Lx Ly Lz)._calc_eigenvalue n_x n_y n_z ∧
        (ParticleBox.init m Lx Ly Lz)._calc_eigenvalue n_x (-n_y) n_z =
          (ParticleBox.init m Lx Ly Lz)._calc_eigenvalue n_x n_y n_z ∧
        (ParticleBox.init m Lx Ly Lz)._calc_eigenvalue n_x n_y (-n_z) =
          (ParticleBox.init m Lx Ly Lz)._calc_eigenvalue n_x n_y n_z)) := by
  have hh := hPlanck_pos
  constructor
  · intro m L hm hL
    have hc : 0 < hPlanck ^ 2 / (8 * m) := by positivity
    refine ⟨?_, ?_, ?_⟩
    · intro n
      rw [calc_single_eigenvalue_eq]
      simp only [ParticleBox_multiD.init]
      apply mul_nonneg hc.le
      apply List.sum_nonneg
      intro x hx
      obtain ⟨p, _, rfl⟩ := List.mem_map.1 hx
      positivity
    · intro n hlen
      rw [calc_single_eigenvalue_eq]
      simp only [ParticleBox_multiD.init]
      constructor
      · intro hE
        have hS : ((n.zip L).map fun p => (p.1 : ℚ) ^ 2 / p.2 ^ 2).sum = 0 := by
          rcases mul_eq_zero.1 hE with h | h
          · exact absurd h hc.ne'
          · exact h
        intro x hx
        have hx' : x ∈ (n.zip L).map Prod.fst := by
          rw [List.map_fst_zip n L (le_of_eq hlen)]
          exact hx
        obtain ⟨p, hp, rfl⟩ := List.mem_map.1 hx'
        have hterm : (p.1 : ℚ) ^ 2 / p.2 ^ 2 = 0 := by
          refine List.all_zero_of_le_zero_le_of_sum_eq_zero ?_ hS ?_
          · intro t ht
            obtain ⟨q, _, rfl⟩ := List.mem_map.1 ht
            positivity
          · exact List.mem_map_of_mem _ hp
        have hL2 : p.2 ≠ 0 := (hL p.2 (List.of_mem_zip hp).2).ne'
        rcases div_eq_zero_iff.1 hterm with h | h
        · have h1 : (p.1 : ℚ) = 0 := by
            have h2 : (2 : ℕ) ≠ 0 := by norm_num
            exact (pow_eq_zero_iff h2).1 h
          exact_mod_cast h1
        · exact absurd h (pow_ne_zero 2 hL2)
      · intro h0
        have hS : ((n.zip L).map fun p => (p.1 : ℚ) ^ 2 / p.2 ^ 2).sum = 0 := by
          apply List.sum_eq_zero
          intro t ht
          obtain ⟨p, hp, rfl⟩ := List.mem_map.1 ht
          have : p.1 = 0 := h0 p.1 (List.of_mem_zip hp).1
          rw [this]
          simp
        rw [hS, mul_zero]
    · intro n₁ n₂ hf
      rw [calc_single_eigenvalue_eq, calc_single_eigenvalue_eq]
      simp only [ParticleBox_multiD.init]
      rw [zip_sum_sq_invariant n₁ n₂ hf]
  · intro m Lx Ly Lz hm hLx hLy hLz
    have hc : 0 < hPlanck ^ 2 / (8 * m) := by positivity
    have key : ∀ (a : ℤ) (l : ℚ), 0 < l → ((a : ℚ) / l) ^ 2 = 0 → a = 0 := by
      intro a l hl h
      have h2 : (a : ℚ) / l = 0 := by
        have hne : (2 : ℕ) ≠ 0 := by norm_num
        exact (pow_eq_zero_iff hne).1 h
      rcases div_eq_zero_iff.1 h2 with h3 | h3
      · exact_mod_cast h3
      · exact absurd h3 hl.ne'
    refine ⟨?_, ?_, ?_⟩
    · intro n_x n_y n_z
      show 0 ≤ hPlanck ^ 2 / (8 * m)
        * (((n_x : ℚ) / Lx) ^ 2 + ((n_y : ℚ) / Ly) ^ 2 + ((n_z : ℚ) / Lz) ^ 2)
      positivity
    · intro n_x n_y n_z
      show hPlanck ^ 2 / (8 * m)
          * (((n_x : ℚ) / Lx) ^ 2 + ((n_y : ℚ) / Ly) ^ 2 + ((n_z : ℚ) / Lz) ^ 2)
            = 0 ↔ _
      constructor
      · intro hE
        have hS : ((n_x : ℚ) / Lx) ^ 2 + ((n_y : ℚ) / Ly) ^ 2
            + ((n_z : ℚ) / Lz) ^ 2 = 0 := by
          rcases mul_eq_zero.1 hE with h | h
          · exact absurd h hc.ne'
          · exact h
        have t1 : (0 : ℚ) ≤ ((n_x : ℚ) / Lx) ^ 2 := sq_nonneg _
        have t2 : (0 : ℚ) ≤ ((n_y : ℚ) / Ly) ^ 2 := sq_nonneg _
        have t3 : (0 : ℚ) ≤ ((n_z : ℚ) / Lz) ^ 2 := sq_nonneg _
        exact ⟨key n_x Lx hLx (by linarith), key n_y Ly hLy (by linarith),
          key n_z Lz hLz (by linarith)⟩
      · rintro ⟨rfl, rfl, rfl⟩
        norm_num
    · intro n_x n_y n_z
      refine ⟨?_, ?_, ?_⟩ <;>
        · show hPlanck ^ 2 / (8 * m) * _ = hPlanck ^ 2 / (8 * m) * _
          push_cast
          ring

/-- C10 witness: the multi-D box with mass 1 and lengths `[1, 2]` at states
`(-3, 5)` and `(3, -5)`, and the 3-D unit box at states `(-3, 5, 2)` and
`(3, 5, 2)`: the energies are non-negative, the zero states have zero energy,
and negating quantum numbers leaves the energies unchanged. -/
theorem C10_eigenvalue_algebra_witness :
    (0 ≤ (ParticleBox_multiD.init 1 [1, 2]).calc_single_eigenvalue [-3, 5] ∧
      ((ParticleBox_multiD.init 1 [1, 2]).calc_single_eigenvalue [0, 0] = 0 ↔
        ∀ x ∈ ([0, 0] : List ℤ), x = 0) ∧
      (ParticleBox_multiD.init 1 [1, 2]).calc_single_eigenvalue [-3, 5] =
        (ParticleBox_multiD.init 1 [1, 2]).calc_single_eigenvalue [3, -5]) ∧
    (0 ≤ (ParticleBox.init 1 1 1 1)._calc_eigenvalue (-3) 5 2 ∧
      ((ParticleBox.init 1 1 1 1)._calc_eigenvalue 0 0 0 = 0 ↔
        (0 : ℤ) = 0 ∧ (0 : ℤ) = 0 ∧ (0 : ℤ) = 0) ∧
      (ParticleBox.init 1 1 1 1)._calc_eigenvalue (-3) 5 2 =
        (ParticleBox.init 1 1 1 1)._calc_eigenvalue 3 5 2) := by
  have h := C10_eigenvalue_algebra.1 1 [1, 2] (by norm_num) (by
    intro x hx
    rcases List.mem_cons.1 hx with rfl | hx'
    · norm_num
    · rcases List.mem_cons.1 hx' with rfl | h''
      · norm_num
      · simp at h'')
  have h' := C10_eigenvalue_algebra.2 1 1 1 1 (by norm_num) (by norm_num)
    (by norm_num) (by norm_num)
  refine ⟨⟨h.1 [-3, 5], h.2.1 [0, 0] rfl, h.2.2 [-3, 5] [3, -5] ?_⟩,
    h'.1 (-3) 5 2, h'.2.1 0 0 0, (h'.2.2 3 5 2).1⟩
  refine List.Forall₂.cons ?_ (List.Forall₂.cons ?_ List.Forall₂.nil)
  · right; rfl
  · right; rfl

/-! ### Lemmas about the degeneracy classifier -/

/-- Inserting an element in front of exactly the slot of a covering
duplicate-free value list permutes to consing it in front of everything. -/
theorem flatten_ite_cons_perm {α : Type} (p : α × ℚ) (f : ℚ → List (α × ℚ)) :
    ∀ (vs : List ℚ), vs.Nodup → p.2 ∈ vs →
      List.Perm ((vs.map fun e => if p.2 = e then p :: f e else f e).flatten)
        (p :: (vs.map f).flatten)
  | [], _, hmem => absurd hmem (List.not_mem_nil p.2)
  | e :: es, hnd, hmem => by
    simp only [List.map_cons, List.flatten_cons]
    rcases List.mem_cons.1 hmem with heq | hmem'
    · rw [if_pos heq]
      have hrest : (es.map fun e' => if p.2 = e' then p :: f e' else f e') =
          es.map f := by
        refine List.map_congr_left fun e' he' => ?_
        have hne : ¬ p.2 = e' := fun h =>
          (List.nodup_cons.1 hnd).1 (heq ▸ h ▸ he')
        rw [if_neg hne]
      rw [hrest]
      exact List.Perm.refl _
    · have hne : ¬ p.2 = e := fun h =>
        (List.nodup_cons.1 hnd).1 (h ▸ hmem')
      rw [if_neg hne]
      have ih := flatten_ite_cons_perm p f es (List.nodup_cons.1 hnd).2 hmem'
      exact (ih.append_left (f e)).trans List.perm_middle

/-- The per-value filters of a table, taken over a duplicate-free list of
values covering every value of the table, concatenate to a permutation of the
table. -/
theorem flatten_filters_perm {α : Type} [DecidableEq α]
    (table : List (α × ℚ)) (vs : List ℚ)
    (hnd : vs.Nodup) (hcov : ∀ p ∈ table, p.2 ∈ vs) :
    List.Perm
      ((vs.map fun e => table.filter fun p => decide (p.2 = e)).flatten) table := by
  induction table with
  | nil =>
    have h : (vs.map fun e => ([] : List (α × ℚ)).filter
        fun p => decide (p.2 = e)).flatten = [] := by
      simp [List.filter_nil]
    rw [h]
  | cons p tbl ih =>
    have hstep : (vs.map fun e => (p :: tbl).filter fun q => decide (q.2 = e)) =
        vs.map fun e => if p.2 = e then p :: tbl.filter (fun q => decide (q.2 = e))
          else tbl.filter (fun q => decide (q.2 = e)) := by
      refine List.map_congr_left fun e _ => ?_
      by_cases h : p.2 = e
      · rw [if_pos h, List.filter_cons_of_pos (by simpa using h)]
      · rw [if_neg h, List.filter_cons_of_neg (by simpa using h)]
    rw [hstep]
    have h1 := flatten_ite_cons_perm p
      (fun e => tbl.filter fun q => decide (q.2 = e)) vs hnd
      (hcov p (List.mem_cons_self p tbl))
    have h2 := ih fun q hq => hcov q (List.mem_cons_of_mem p hq)
    exact h1.trans (h2.cons p)

/-- The discrete eigenvalue list has no duplicates. -/
theorem discreteEigenvalues_nodup {α : Type} (table : List (α × ℚ)) :
    (discreteEigenvalues table).Nodup :=
  (List.perm_insertionSort _ _).nodup_iff.2 (List.nodup_dedup _)

/-- Membership in the discrete eigenvalue list is membership among the table's
values. -/
theorem mem_discreteEigenvalues {α : Type} {table : List (α × ℚ)} {x : ℚ} :
    x ∈ discreteEigenvalues table ↔ x ∈ table.map Prod.snd := by
  unfold discreteEigenvalues
  rw [(List.perm_insertionSort _ _).mem_iff, List.mem_dedup]

/-- The discrete eigenvalue list is sorted non-decreasingly. -/
theorem discreteEigenvalues_sorted {α : Type} (table : List (α × ℚ)) :
    List.Sorted (fun a b => a ≤ b) (discreteEigenvalues table) :=
  List.sorted_insertionSort _ _

/-- Each group of the classifier records as multiplicity the length of its
member list. -/
theorem degeneracyGroups_mult_eq {α : Type} [DecidableEq α]
    {table : List (α × ℚ)} {g : ℚ × ℕ × List α}
    (hg : g ∈ degeneracyGroups table) : g.2.1 = g.2.2.length := by
  obtain ⟨e, _, rfl⟩ := List.mem_map.1 hg
  rfl

/-- The member lists of the classifier's groups concatenate to a permutation
of the table's keys. -/
theorem degeneracyGroups_flatten_perm {α : Type} [DecidableEq α]
    (table : List (α × ℚ)) :
    List.Perm (((degeneracyGroups table).map fun g => g.2.2).flatten)
      (table.map Prod.fst) := by
  have h := flatten_filters_perm table (discreteEigenvalues table)
    (discreteEigenvalues_nodup table)
    (fun p hp => mem_discreteEigenvalues.2 (List.mem_map_of_mem Prod.snd hp))
  have e1 : ((degeneracyGroups table).map fun g => g.2.2).flatten =
      (((discreteEigenvalues table).map
          fun e => table.filter fun p => decide (p.2 = e)).flatten).map Prod.fst := by
    rw [List.map_flatten, List.map_map, degeneracyGroups, List.map_map]
    exact congrArg List.flatten (List.map_congr_left fun e _ => rfl)
  rw [e1]
  exact h.map Prod.fst

/-- The multiplicities of the classifier's groups sum to the table size. -/
theorem degeneracyGroups_mult_sum {α : Type} [DecidableEq α]
    (table : List (α × ℚ)) :
    ((degeneracyGroups table).map fun g => g.2.1).sum = table.length := by
  have hl := (degeneracyGroups_flatten_perm table).length_eq
  rw [List.length_flatten, List.map_map, List.length_map] at hl
  calc ((degeneracyGroups table).map fun g => g.2.1).sum
      = ((degeneracyGroups table).map (List.length ∘ fun g => g.2.2)).sum :=
        congrArg List.sum
          (List.map_congr_left fun g hg => degeneracyGroups_mult_eq hg)
    _ = table.length := hl

/-- The energies of the classifier's groups are exactly the discrete
eigenvalue list. -/
theorem degeneracyGroups_energies {α : Type} [DecidableEq α]
    (table : List (α × ℚ)) :
    (degeneracyGroups table).map (fun g => g.1) = discreteEigenvalues table := by
  unfold degeneracyGroups
  rw [List.map_map]
  exact List.map_id _

/-! ### C3: the classifier partitions the table -/

/-- C3: for every eigenvalue table, `determine_degeneracy` (both classes)
partitions it: the multiplicities sum to the number of entries, each group's
multiplicity is the length of its member list, and the concatenated member
lists are a permutation of (hence cover exactly once) the table's keys. -/
theorem C3_degeneracy_partition :
    (∀ (b : ParticleBox_multiD) (table : List (List ℤ × ℚ)),
      ((b.determine_degeneracy table).map fun g => g.2.1).sum = table.length ∧
      (∀ g ∈ b.determine_degeneracy table, g.2.1 = g.2.2.length) ∧
      List.Perm (((b.determine_degeneracy table).map fun g => g.2.2).flatten)
        (table.map Prod.fst)) ∧
    (∀ (b : ParticleBox) (table : List ((ℤ × ℤ × ℤ) × ℚ)),
      ((b.determine_degeneracy table).map fun g => g.2.1).sum = table.length ∧
      (∀ g ∈ b.determine_degeneracy table, g.2.1 = g.2.2.length) ∧
      List.Perm (((b.determine_degeneracy table).map fun g => g.2.2).flatten)
        (table.map Prod.fst)) :=
  ⟨fun _ table => ⟨degeneracyGroups_mult_sum table,
      fun _ hg => degeneracyGroups_mult_eq hg,
      degeneracyGroups_flatten_perm table⟩,
   fun _ table => ⟨degeneracyGroups_mult_sum table,
      fun _ hg => degeneracyGroups_mult_eq hg,
      degeneracyGroups_flatten_perm table⟩⟩

/-- C3 witness: the three-entry table `{(1) ↦ 5, (2) ↦ 5, (3) ↦ 7}`:
multiplicities sum to 3 and the group members cover the keys exactly once. -/
theorem C3_degeneracy_partition_witness :
    ((((ParticleBox_multiD.init 1 [1]).determine_degeneracy
        [([1], 5), ([2], 5), ([3], 7)]).map fun g => g.2.1).sum =
      ([([1], 5), ([2], 5), ([3], 7)] : List (List ℤ × ℚ)).length) ∧
    List.Perm ((((ParticleBox_multiD.init 1 [1]).determine_degeneracy
        [([1], 5), ([2], 5), ([3], 7)]).map fun g => g.2.2).flatten)
      (([([1], 5), ([2], 5), ([3], 7)] : List (List ℤ × ℚ)).map Prod.fst) :=
  ⟨(C3_degeneracy_partition.1 (ParticleBox_multiD.init 1 [1])
      [([1], 5), ([2], 5), ([3], 7)]).1,
   (C3_degeneracy_partition.1 (ParticleBox_multiD.init 1 [1])
      [([1], 5), ([2], 5), ([3], 7)]).2.2⟩

/-! ### C6: groups sorted by strictly increasing energy -/

/-- C6: for every eigenvalue table the classifier's groups are ordered by
strictly increasing energy, and the empty table yields the empty group list
(both classes). -/
theorem C6_sorted_groups :
    (∀ (b : ParticleBox_multiD) (table : List (List ℤ × ℚ)),
      List.Sorted (fun a b => a < b)
        ((b.determine_degeneracy table).map fun g => g.1)) ∧
    ((ParticleBox_multiD.init 1 [1]).determine_degeneracy [] = []) ∧
    (∀ (b : ParticleBox) (table : List ((ℤ × ℤ × ℤ) × ℚ)),
      List.Sorted (fun a b => a < b)
        ((b.determine_degeneracy table).map fun g => g.1)) ∧
    ((ParticleBox.init 1 1 1 1).determine_degeneracy [] = []) := by
  refine ⟨fun b table => ?_, rfl, fun b table => ?_, rfl⟩ <;>
    · show List.Sorted (fun a b => a < b)
        ((degeneracyGroups table).map fun g => g.1)
      rw [degeneracyGroups_energies]
      exact (discreteEigenvalues_sorted table).lt_of_le
        (discreteEigenvalues_nodup table)

/-! ### Lemmas about the range enumeration -/

/-- Membership in `range(lo, hi + 1)`. -/
theorem mem_rangeList {lo hi x : ℤ} : x ∈ rangeList lo hi ↔ lo ≤ x ∧ x ≤ hi := by
  unfold rangeList
  simp only [List.mem_map, List.mem_range]
  constructor
  · rintro ⟨k, hk, rfl⟩
    omega
  · rintro ⟨h1, h2⟩
    exact ⟨(x - lo).toNat, by omega, by omega⟩

/-- The length of `range(lo, hi + 1)`. -/
theorem length_rangeList (lo hi : ℤ) :
    (rangeList lo hi).length = (hi + 1 - lo).toNat := by
  unfold rangeList
  rw [List.length_map, List.length_range]

/-- `range(lo, hi + 1)` is empty when `hi < lo`. -/
theorem rangeList_eq_nil {lo hi : ℤ} (h : hi < lo) : rangeList lo hi = [] := by
  unfold rangeList
  rw [show (hi + 1 - lo).toNat = 0 by omega]
  rfl

/-- Unfolding of the product enumeration on a leading dimension. -/
theorem prodRanges_cons (r : ℤ × ℤ) (ns : List (ℤ × ℤ)) :
    prodRanges (r :: ns) =
      (rangeList r.1 r.2).flatMap fun i => (prodRanges ns).map fun t => i :: t :=
  rfl

/-- A tuple is enumerated by `prodRanges` exactly when it lies componentwise in
the inclusive ranges. -/
theorem mem_prodRanges {ns : List (ℤ × ℤ)} {t : List ℤ} :
    t ∈ prodRanges ns ↔ List.Forall₂ (fun r x => r.1 ≤ x ∧ x ≤ r.2) ns t := by
  induction ns generalizing t with
  | nil =>
    show t ∈ [[]] ↔ _
    rw [List.mem_singleton, List.forall₂_nil_left_iff]
  | cons r ns ih =>
    rw [prodRanges_cons]
    cases t with
    | nil =>
      simp only [List.mem_flatMap, List.mem_map]
      constructor
      · rintro ⟨i, _, t', _, h⟩
        exact absurd h (List.cons_ne_nil i t')
      · intro h
        exact absurd h (by rintro ⟨⟩)
    | cons x ts =>
      simp only [List.mem_flatMap, List.mem_map]
      constructor
      · rintro ⟨i, hi, t', ht', heq⟩
        injection heq with h1 h2
        subst h1
        subst h2
        exact List.Forall₂.cons (mem_rangeList.1 hi) (ih.1 ht')
      · intro hf
        rcases hf with _ | ⟨hrx, hf'⟩
        exact ⟨x, mem_rangeList.2 hrx, ts, ih.2 hf', rfl⟩

/-- The product enumeration has the product cardinality. -/
theorem length_prodRanges (ns : List (ℤ × ℤ)) :
    (prodRanges ns).length = (ns.map fun r => (r.2 + 1 - r.1).toNat).prod := by
  induction ns with
  | nil => rfl
  | cons r ns ih =>
    rw [prodRanges_cons, List.length_flatMap]
    rw [show ((rangeList r.1 r.2).map
          (List.length ∘ fun i => (prodRanges ns).map fun t => i :: t)) =
        (rangeList r.1 r.2).map fun _ => (prodRanges ns).length from
      List.map_congr_left fun i _ => by
        simp only [Function.comp_apply, List.length_map]]
    rw [List.map_const', List.sum_replicate, smul_eq_mul,
      length_rangeList, ih, List.map_cons, List.prod_cons]

/-- The product enumeration is empty as soon as one range is empty. -/
theorem prodRanges_eq_nil {ns : List (ℤ × ℤ)}
    (h : ∃ r ∈ ns, r.2 < r.1) : prodRanges ns = [] := by
  induction ns with
  | nil =>
    obtain ⟨r, hr, _⟩ := h
    exact absurd hr (List.not_mem_nil r)
  | cons r ns ih =>
    rw [prodRanges_cons]
    obtain ⟨r', hr', hlt⟩ := h
    rcases List.mem_cons.1 hr' with rfl | hmem
    · rw [rangeList_eq_nil hlt]
      rfl
    · rw [ih ⟨r', hmem, hlt⟩]
      simp

/-- Length of a `flatMap` whose pieces all have the same length. -/
theorem length_flatMap_const {β γ : Type} (l : List β) (f : β → List γ) (c : ℕ)
    (h : ∀ x ∈ l, (f x).length = c) : (l.flatMap f).length = l.length * c := by
  rw [List.length_flatMap]
  rw [show l.map (List.length ∘ f) = l.map fun _ => c from
    List.map_congr_left fun x hx => h x hx]
  rw [List.map_const', List.sum_replicate, smul_eq_mul]

/-! ### C4: the range computation enumerates the Cartesian product -/

/-- C4: the range computation returns a table whose key list is exactly the
Cartesian product of the per-dimension inclusive ranges, with cardinality
`∏ (max_d − min_d + 1)` when `min_d ≤ max_d`, and each key maps to the
single-eigenvalue result for that state (`calc_multi_eigenvalues` of
`ParticleBox_multiD` and `calc_eigenvalues` of `ParticleBox`). -/
theorem C4_cartesian_product :
    (∀ (b : ParticleBox_multiD) (ns : List (ℤ × ℤ)), (∀ r ∈ ns, r.1 ≤ r.2) →
      ((b.calc_multi_eigenvalues ns).map Prod.fst = prodRanges ns) ∧
      (∀ t : List ℤ, t ∈ (b.calc_multi_eigenvalues ns).map Prod.fst ↔
        List.Forall₂ (fun r x => r.1 ≤ x ∧ x ≤ r.2) ns t) ∧
      (((b.calc_multi_eigenvalues ns).length : ℤ) =
        (ns.map fun r => r.2 - r.1 + 1).prod) ∧
      (∀ p ∈ b.calc_multi_eigenvalues ns, p.2 = b.calc_single_eigenvalue p.1)) ∧
    (∀ (b : ParticleBox) (n_x n_y n_z : ℤ × ℤ),
      (∀ i j k : ℤ,
        ((i, j, k) ∈ (b.calc_eigenvalues n_x n_y n_z).map Prod.fst ↔
          (n_x.1 ≤ i ∧ i ≤ n_x.2) ∧ (n_y.1 ≤ j ∧ j ≤ n_y.2) ∧
          (n_z.1 ≤ k ∧ k ≤ n_z.2))) ∧
      ((b.calc_eigenvalues n_x n_y n_z).length =
        (n_x.2 + 1 - n_x.1).toNat *
          ((n_y.2 + 1 - n_y.1).toNat * (n_z.2 + 1 - n_z.1).toNat)) ∧
      (∀ p ∈ b.calc_eigenvalues n_x n_y n_z,
        p.2 = b._calc_eigenvalue p.1.1 p.1.2.1 p.1.2.2)) := by
  constructor
  · intro b ns hvalid
    have hfst : (b.calc_multi_eigenvalues ns).map Prod.fst = prodRanges ns := by
      unfold ParticleBox_multiD.calc_multi_eigenvalues
      rw [List.map_map]
      exact List.map_id _
    refine ⟨hfst, ?_, ?_, ?_⟩
    · intro t
      rw [hfst]
      exact mem_prodRanges
    · have hlen : (b.calc_multi_eigenvalues ns).length =
          (prodRanges ns).length := by
        unfold ParticleBox_multiD.calc_multi_eigenvalues
        rw [List.length_map]
      rw [hlen, length_prodRanges, Nat.cast_list_prod, List.map_map]
      refine congrArg List.prod (List.map_congr_left fun r hr => ?_)
      have := hvalid r hr
      simp only [Function.comp_apply]
      omega
    · intro p hp
      unfold ParticleBox_multiD.calc_multi_eigenvalues at hp
      obtain ⟨t, _, rfl⟩ := List.mem_map.1 hp
      rfl
  · intro b n_x n_y n_z
    refine ⟨?_, ?_, ?_⟩
    · intro i j k
      have hkeys : (b.calc_eigenvalues n_x n_y n_z).map Prod.fst =
          (rangeList n_x.1 n_x.2).flatMap fun i' =>
            (rangeList n_y.1 n_y.2).flatMap fun j' =>
              (rangeList n_z.1 n_z.2).map fun k' => (i', j', k') := by
        unfold ParticleBox.calc_eigenvalues
        rw [List.map_flatMap]
        refine congrArg (List.flatMap _) (funext fun i' => ?_)
        rw [List.map_flatMap]
        refine congrArg (List.flatMap _) (funext fun j' => ?_)
        rw [List.map_map]
        rfl
      rw [hkeys]
      simp only [List.mem_flatMap, List.mem_map, mem_rangeList, Prod.mk.injEq]
      constructor
      · rintro ⟨i', hi, j', hj, k', hk, rfl, rfl, rfl⟩
        exact ⟨hi, hj, hk⟩
      · rintro ⟨hi, hj, hk⟩
        exact ⟨i, hi, j, hj, k, hk, rfl, rfl, rfl⟩
    · unfold ParticleBox.calc_eigenvalues
      rw [length_flatMap_const _ _
        ((n_y.2 + 1 - n_y.1).toNat * (n_z.2 + 1 - n_z.1).toNat)
        (fun i _ => ?_), length_rangeList]
      rw [length_flatMap_const _ _ ((n_z.2 + 1 - n_z.1).toNat)
        (fun j _ => ?_), length_rangeList]
      rw [List.length_map, length_rangeList]
    · intro p hp
      unfold ParticleBox.calc_eigenvalues at hp
      obtain ⟨i, _, hrest⟩ := List.mem_flatMap.1 hp
      obtain ⟨j, _, hk⟩ := List.mem_flatMap.1 hrest
      obtain ⟨k, _, rfl⟩ := List.mem_map.1 hk
      rfl

/-- C4 witness: a 2-D box over ranges `x ∈ [1,2]`, `y ∈ [1,1]`: the key list
is the Cartesian product and the table has `2·1 = 2` entries; the 3-D table
over `x ∈ [1,2]`, `y, z ∈ [1,1]` has `2·1·1 = 2` entries. -/
theorem C4_cartesian_product_witness :
    (((ParticleBox_multiD.init 1 [1, 1]).calc_multi_eigenvalues
        [(1, 2), (1, 1)]).map Prod.fst = prodRanges [(1, 2), (1, 1)]) ∧
    ((((ParticleBox_multiD.init 1 [1, 1]).calc_multi_eigenvalues
        [(1, 2), (1, 1)]).length : ℤ) =
      ([((1 : ℤ), (2 : ℤ)), (1, 1)].map fun r => r.2 - r.1 + 1).prod) ∧
    (((ParticleBox.init 1 1 1 1).calc_eigenvalues (1, 2) (1, 1) (1, 1)).length =
      ((2 : ℤ) + 1 - 1).toNat *
        (((1 : ℤ) + 1 - 1).toNat * ((1 : ℤ) + 1 - 1).toNat)) :=
  ⟨(C4_cartesian_product.1 (ParticleBox_multiD.init 1 [1, 1]) [(1, 2), (1, 1)]
      (by decide)).1,
   (C4_cartesian_product.1 (ParticleBox_multiD.init 1 [1, 1]) [(1, 2), (1, 1)]
      (by decide)).2.2.1,
   (C4_cartesian_product.2 (ParticleBox.init 1 1 1 1) (1, 2) (1, 1) (1, 1)).2.1⟩

/-! ### C5: empty ranges -/

/-- C5 counterexample: called with `min_d > max_d` in the second dimension, the
range computation does not fail with an `EmptyRange` error — no such check
exists in the code — it returns normally with an empty table (shown for both
classes at a concrete input). -/
theorem C5_no_error_on_empty_range :
    (ParticleBox_multiD.init 1 [1, 1, 1]).calc_multi_eigenvalues
        [(1, 2), (2, 1), (1, 1)] = [] ∧
    (ParticleBox.init 1 1 1 1).calc_eigenvalues (1, 2) (2, 1) (1, 1) = [] :=
  ⟨rfl, rfl⟩

/-- C5 amended: when `min_d > max_d` for some dimension, the range computation
raises no error and returns the empty table (Python's `range` is simply empty,
so the loops never execute). -/
theorem C5_empty_range_returns_empty :
    (∀ (b : ParticleBox_multiD) (ns : List (ℤ × ℤ)),
      (∃ r ∈ ns, r.2 < r.1) → b.calc_multi_eigenvalues ns = []) ∧
    (∀ (b : ParticleBox) (n_x n_y n_z : ℤ × ℤ),
      n_x.2 < n_x.1 ∨ n_y.2 < n_y.1 ∨ n_z.2 < n_z.1 →
      b.calc_eigenvalues n_x n_y n_z = []) := by
  constructor
  · intro b ns h
    unfold ParticleBox_multiD.calc_multi_eigenvalues
    rw [prodRanges_eq_nil h]
    rfl
  · intro b n_x n_y n_z h
    unfold ParticleBox.calc_eigenvalues
    rcases h with h | h | h
    · rw [rangeList_eq_nil h]
      rfl
    · rw [rangeList_eq_nil h]
      simp
    · rw [rangeList_eq_nil h]
      simp

/-- C5 amended witness: concrete empty-range calls return the empty table. -/
theorem C5_empty_range_returns_empty_witness :
    (ParticleBox_multiD.init 1 [1]).calc_multi_eigenvalues [(2, 1)] = [] ∧
    (ParticleBox.init 1 1 1 1).calc_eigenvalues (1, 1) (1, 1) (5, 4) = [] :=
  ⟨C5_empty_range_returns_empty.1 (ParticleBox_multiD.init 1 [1]) [(2, 1)]
      ⟨(2, 1), List.mem_singleton.2 rfl, by decide⟩,
   C5_empty_range_returns_empty.2 (ParticleBox.init 1 1 1 1) (1, 1) (1, 1) (5, 4)
      (Or.inr (Or.inr (by decide)))⟩

/-! ### C2: grouping uses exact equality; the cubic-box scenario -/

/-- Evaluation of the classifier on a four-entry table whose middle two entries
share one energy, with the three distinct energies in ascending order. -/
theorem degeneracyGroups_two_mid {α : Type} [DecidableEq α] (k1 k2 k3 k4 : α)
    (a b c : ℚ) (hab : a < b) (hbc : b < c) :
    degeneracyGroups [(k1, a), (k2, b), (k3, b), (k4, c)] =
      [(a, 1, [k1]), (b, 2, [k2, k3]), (c, 1, [k4])] := by
  have hac : a < c := hab.trans hbc
  have hd : discreteEigenvalues [(k1, a), (k2, b), (k3, b), (k4, c)] =
      [a, b, c] := by
    show List.insertionSort _ (List.dedup [a, b, b, c]) = [a, b, c]
    rw [List.dedup_cons_of_not_mem (by simp [hab.ne, hac.ne]),
      List.dedup_cons_of_mem (by simp),
      List.dedup_cons_of_not_mem (by simp [hbc.ne]),
      List.dedup_cons_of_not_mem (List.not_mem_nil c), List.dedup_nil]
    simp [List.insertionSort, List.orderedInsert, hab.le, hbc.le]
  unfold degeneracyGroups
  rw [hd]
  simp [List.filter, hab.ne, hab.ne', hbc.ne, hbc.ne', hac.ne, hac.ne']

/-- C2 counterexample: the classifier splits two energies whose relative
difference is exactly 1e-9 (within the spec's default tolerance) into two
groups: grouping uses Python `==`, not a tolerance. -/
theorem C2_tolerance_counterexample :
    ((ParticleBox_multiD.init 1 [1]).determine_degeneracy
        [([1], 1000000000), ([2], 1000000001)]).length = 2 ∧
    |(1000000001 : ℚ) - 1000000000| ≤ 1 / 10 ^ 9 * |(1000000000 : ℚ)| := by
  constructor
  · rfl
  · norm_num

/-- C2 amended: grouping compares energies with exact equality; in the exact
arithmetic of the embedding the cubic-box energies of the permuted states
`(1,2,1)` and `(2,1,1)` coincide, so the range `x ∈ [1,2]`, `y ∈ [1,2]`,
`z = 1` over the unit cube yields the group of `(1,1,1)` alone, the group of
`(1,2,1)` and `(2,1,1)` with multiplicity 2, and `(2,2,1)` as a singleton. -/
theorem C2_exact_grouping_cubic :
    (ParticleBox_multiD.init 1 [1, 1, 1]).determine_degeneracy
        ((ParticleBox_multiD.init 1 [1, 1, 1]).calc_multi_eigenvalues
          [(1, 2), (1, 2), (1, 1)]) =
      [((ParticleBox_multiD.init 1 [1, 1, 1]).calc_single_eigenvalue [1, 1, 1], 1,
          [[1, 1, 1]]),
       ((ParticleBox_multiD.init 1 [1, 1, 1]).calc_single_eigenvalue [1, 2, 1], 2,
          [[1, 2, 1], [2, 1, 1]]),
       ((ParticleBox_multiD.init 1 [1, 1, 1]).calc_single_eigenvalue [2, 2, 1], 1,
          [[2, 2, 1]])] := by
  have hp2 : 0 < hPlanck ^ 2 := pow_pos hPlanck_pos 2
  have e111 : (ParticleBox_multiD.init 1 [1, 1, 1]).calc_single_eigenvalue
      [1, 1, 1] = 3 / 8 * hPlanck ^ 2 := by
    rw [calc_single_eigenvalue_eq]
    norm_num [ParticleBox_multiD.init]
    ring
  have e121 : (ParticleBox_multiD.init 1 [1, 1, 1]).calc_single_eigenvalue
      [1, 2, 1] = 3 / 4 * hPlanck ^ 2 := by
    rw [calc_single_eigenvalue_eq]
    norm_num [ParticleBox_multiD.init]
    ring
  have e211 : (ParticleBox_multiD.init 1 [1, 1, 1]).calc_single_eigenvalue
      [2, 1, 1] = 3 / 4 * hPlanck ^ 2 := by
    rw [calc_single_eigenvalue_eq]
    norm_num [ParticleBox_multiD.init]
    ring
  have e221 : (ParticleBox_multiD.init 1 [1, 1, 1]).calc_single_eigenvalue
      [2, 2, 1] = 9 / 8 * hPlanck ^ 2 := by
    rw [calc_single_eigenvalue_eq]
    norm_num [ParticleBox_multiD.init]
    ring
  show degeneracyGroups
      [([1, 1, 1], (ParticleBox_multiD.init 1 [1, 1, 1]).calc_single_eigenvalue
          [1, 1, 1]),
       ([1, 2, 1], (ParticleBox_multiD.init 1 [1, 1, 1]).calc_single_eigenvalue
          [1, 2, 1]),
       ([2, 1, 1], (ParticleBox_multiD.init 1 [1, 1, 1]).calc_single_eigenvalue
          [2, 1, 1]),
       ([2, 2, 1], (ParticleBox_multiD.init 1 [1, 1, 1]).calc_single_eigenvalue
          [2, 2, 1])] = _
  rw [e111, e121, e211, e221]
  exact degeneracyGroups_two_mid [1, 1, 1] [1, 2, 1] [2, 1, 1] [2, 2, 1]
    (3 / 8 * hPlanck ^ 2) (3 / 4 * hPlanck ^ 2) (9 / 8 * hPlanck ^ 2)
    (by linarith) (by linarith)

/-! ### C7: member order within a group -/

/-- Each group's member list is the table's keys filtered to the group energy,
in table order; in particular it is a sublist of the keys in table order. -/
theorem degeneracyGroups_members_spec {α : Type} [DecidableEq α]
    {table : List (α × ℚ)} {g : ℚ × ℕ × List α}
    (hg : g ∈ degeneracyGroups table) :
    g.2.2 = (table.filter fun p => decide (p.2 = g.1)).map Prod.fst ∧
    g.2.2.Sublist (table.map Prod.fst) := by
  obtain ⟨e, _, rfl⟩ := List.mem_map.1 hg
  exact ⟨rfl, (List.filter_sublist table).map Prod.fst⟩

/-- C7 counterexample: a table inserted in the order `(2)` then `(1)` produces
a group whose members are `[(2), (1)]`, not in ascending lexicographic order
(`(1)` precedes `(2)` lexicographically): the code never sorts members. -/
theorem C7_lex_order_counterexample :
    (ParticleBox_multiD.init 1 [1]).determine_degeneracy [([2], 5), ([1], 5)] =
      [(5, 2, [[2], [1]])] ∧
    lexLtB [1] [2] = true :=
  ⟨rfl, rfl⟩

/-- C7 amended: within each group the member states appear in the insertion
order of the table (the filter of the table's keys by the group energy), not
in lexicographic order (both classes). -/
theorem C7_members_follow_table_order :
    (∀ (b : ParticleBox_multiD) (table : List (List ℤ × ℚ))
        (g : ℚ × ℕ × List (List ℤ)), g ∈ b.determine_degeneracy table →
      g.2.2 = (table.filter fun p => decide (p.2 = g.1)).map Prod.fst ∧
      g.2.2.Sublist (table.map Prod.fst)) ∧
    (∀ (b : ParticleBox) (table : List ((ℤ × ℤ × ℤ) × ℚ))
        (g : ℚ × ℕ × List (ℤ × ℤ × ℤ)), g ∈ b.determine_degeneracy table →
      g.2.2 = (table.filter fun p => decide (p.2 = g.1)).map Prod.fst ∧
      g.2.2.Sublist (table.map Prod.fst)) :=
  ⟨fun _ _ _ hg => degeneracyGroups_members_spec hg,
   fun _ _ _ hg => degeneracyGroups_members_spec hg⟩

/-- C7 amended witness: in the two-entry table inserted as `(2)`, `(1)`, the
single group's members equal the filtered keys in table order. -/
theorem C7_members_follow_table_order_witness :
    ((5 : ℚ), 2, [[(2 : ℤ)], [1]]).2.2 =
      (([([2], 5), ([1], 5)] : List (List ℤ × ℚ)).filter
        fun p => decide (p.2 = ((5 : ℚ), 2, [[(2 : ℤ)], [1]]).1)).map Prod.fst ∧
    ((5 : ℚ), 2, [[(2 : ℤ)], [1]]).2.2.Sublist
      (([([2], 5), ([1], 5)] : List (List ℤ × ℚ)).map Prod.fst) :=
  C7_members_follow_table_order.1 (ParticleBox_multiD.init 1 [1])
    [([2], 5), ([1], 5)] (5, 2, [[2], [1]]) (by decide)

/-! ### C8: wrong-arity states -/

/-- C8 counterexample: feeding a 2-component state to a 3-length box raises no
`DimensionMismatch` — `zip` silently drops the third box length, so the result
equals the 2-D computation. -/
theorem C8_no_dimension_mismatch_error :
    (ParticleBox_multiD.init 1 [1, 2, 3]).calc_single_eigenvalue [1, 1] =
      (ParticleBox_multiD.init 1 [1, 2]).calc_single_eigenvalue [1, 1] :=
  rfl

/-- C8 amended: `calc_single_eigenvalue` is total on states of any length:
the state is zipped with the side lengths (truncating the longer of the two)
and the closed-form sum is computed over the zipped pairs; appending extra
components to a full-dimensional state never changes the result. -/
theorem C8_wrong_arity_truncates :
    (∀ (b : ParticleBox_multiD) (n : List ℤ),
      b.calc_single_eigenvalue n =
        hPlanck ^ 2 / (8 * b.mass)
          * ((n.zip b.length).map fun p => (p.1 : ℚ) ^ 2 / p.2 ^ 2).sum) ∧
    (∀ (b : ParticleBox_multiD) (n extra : List ℤ),
      n.length = b.length.length →
      b.calc_single_eigenvalue (n ++ extra) = b.calc_single_eigenvalue n) := by
  constructor
  · exact calc_single_eigenvalue_eq
  · intro b n extra hlen
    rw [calc_single_eigenvalue_eq, calc_single_eigenvalue_eq]
    have hz : ∀ (N : List ℤ) (L : List ℚ), N.length = L.length →
        (N ++ extra).zip L = N.zip L := by
      intro N
      induction N with
      | nil =>
        intro L hL
        cases L with
        | nil => simp
        | cons l ls => simp at hL
      | cons x xs ih =>
        intro L hL
        cases L with
        | nil => simp at hL
        | cons l ls =>
          simp only [List.cons_append, List.zip_cons_cons]
          rw [ih ls (by simpa using hL)]
    rw [hz n b.length hlen]

/-- C8 amended witness: appending an extra component to a full 2-D state of a
2-length box leaves the eigenvalue unchanged. -/
theorem C8_wrong_arity_truncates_witness :
    (ParticleBox_multiD.init 1 [1, 2]).calc_single_eigenvalue
        ([1, 1] ++ [7]) =
      (ParticleBox_multiD.init 1 [1, 2]).calc_single_eigenvalue [1, 1] :=
  C8_wrong_arity_truncates.2 (ParticleBox_multiD.init 1 [1, 2]) [1, 1] [7] rfl

/-! ### C9: constructor validation -/

/-- C9 counterexample: construction succeeds and stores the values verbatim
even for a non-positive mass, non-positive side lengths, and dimensionality 4:
no `InvalidGeometry` or `InvalidMass` check exists in either constructor. -/
theorem C9_no_validation_counterexample :
    (ParticleBox_multiD.init (-1) [0, -2, 3, 4]).mass = -1 ∧
    (ParticleBox_multiD.init (-1) [0, -2, 3, 4]).length = [0, -2, 3, 4] ∧
    (ParticleBox.init 0 (-1) 1 1).mass = 0 ∧
    (ParticleBox.init 0 (-1) 1 1).length_x = -1 :=
  ⟨rfl, rfl, rfl, rfl⟩

/-- C9 amended: both constructors are plain storage: for every mass and side
lengths — positive or not, any number of dimensions — construction succeeds
and the fields hold exactly the supplied values. -/
theorem C9_construction_stores_unvalidated :
    (∀ (m : ℚ) (L : List ℚ),
      (ParticleBox_multiD.init m L).mass = m ∧
      (ParticleBox_multiD.init m L).length = L) ∧
    (∀ (m lx ly lz : ℚ),
      (ParticleBox.init m lx ly lz).mass = m ∧
      (ParticleBox.init m lx ly lz).length_x = lx ∧
      (ParticleBox.init m lx ly lz).length_y = ly ∧
      (ParticleBox.init m lx ly lz).length_z = lz) :=
  ⟨fun _ _ => ⟨rfl, rfl⟩, fun _ _ _ _ => ⟨rfl, rfl, rfl, rfl⟩⟩

end QuantumBox
